import Mathlib

/-!
Verification of the resilient incremental-fetch engine of `vid-playlist-man`.

The development shallowly embeds the Rust sources:
* `src/discord.rs` — Snowflake utilities, `Message`, the cursor pagination
  engine `get_messages_range` with its batch filter `filter_msg`, the Discord
  client's `get_json` retry-on-429 recursion, and the orchestrating `mainfn`
  loop over channels;
* `src/fetcher.rs` — the generic `Client::fetch` with read-through response
  caching and `backon`-driven retries with the `adjust` hook for 429s.

Conventions of the embedding:
* `UtcDateTime` values are represented as `Int` milliseconds since the Unix
  epoch.  `time::UtcDateTime::unix_timestamp` floors to whole seconds, which
  for our representation is Euclidean division by 1000 (Lean's `Int` `/`).
* Snowflake identifiers travel through the Rust code as decimal strings; the
  decimal rendering of a `u64` round-trips exactly through `parse`, so the
  embedding keeps them as `Nat` and string parsing never fails.
* Rust `i64` division appears only with non-negative dividends (timestamps at
  or above the Discord epoch), where truncating and Euclidean division agree.
-/

namespace VidPlaylistMan

set_option maxRecDepth 16384

/-- Milliseconds since the Unix epoch of the Discord epoch
(`const DISCORD_EPOCH: i64` in `src/discord.rs`). -/
def DISCORD_EPOCH : Int := 1420070400000

/-- One end of a `std::ops::RangeBounds<time::UtcDateTime>` bound.  Instants
are `Int` milliseconds since the Unix epoch. -/
inductive Bound where
  | included (t : Int)
  | excluded (t : Int)
  | unbounded
deriving DecidableEq

/-- A `RangeBounds<UtcDateTime>` value: a start bound and an end bound. -/
structure DateRange where
  start : Bound
  stop : Bound
deriving DecidableEq

/-- The start-bound half of `RangeBounds::contains`. -/
def boundLowerOk (b : Bound) (t : Int) : Bool :=
  match b with
  | .included s => decide (s ≤ t)
  | .excluded s => decide (s < t)
  | .unbounded => true

/-- The end-bound half of `RangeBounds::contains`. -/
def boundUpperOk (b : Bound) (t : Int) : Bool :=
  match b with
  | .included e => decide (t ≤ e)
  | .excluded e => decide (t < e)
  | .unbounded => true

/-- `RangeBounds::contains(&t)`: both ends admit `t`. -/
def DateRange.contains (r : DateRange) (t : Int) : Bool :=
  boundLowerOk r.start t && boundUpperOk r.stop t

/-- `utils::snowflake_to_unix_ms` from `src/discord.rs`: shift the 64-bit
identifier right by 22 bits and add the Discord epoch.  The Rust function
first parses the decimal string; identifiers are kept as `Nat` here, where
parsing cannot fail. -/
def snowflake_to_unix_ms (s : Nat) : Int :=
  ((s >>> 22 : Nat) : Int) + DISCORD_EPOCH

/-- `utils::snowflake_to_utc_datetime`: divide the millisecond timestamp by
1000 (Rust `i64` division; the dividend is at least the Discord epoch, so
truncating division is Euclidean division) and build a `UtcDateTime` from
whole seconds.  In the millisecond representation used here a whole-second
instant `sec` is `sec * 1000`.  `UtcDateTime::from_unix_timestamp` is
fallible in Rust but every `u64` snowflake yields an in-range year, so the
embedding is total. -/
def snowflake_to_utc_datetime (s : Nat) : Int :=
  (snowflake_to_unix_ms s / 1000) * 1000

/-- `utils::unix_ms_to_snowflake`: validate the triple, then pack
`offset << 22 | worker_id << 12 | sequence`.  `none` models the `Err` cases.
The Rust function returns the decimal string of the `u64`; the embedding
returns the `u64` value itself. -/
def unix_ms_to_snowflake (timestamp_ms : Int) (worker_id : Nat) (seq : Nat) :
    Option Nat :=
  if timestamp_ms < DISCORD_EPOCH then none
  else if 0x3FF < worker_id then none
  else if 0xFFF < seq then none
  else
    let offset := (timestamp_ms - DISCORD_EPOCH).toNat
    if offset >>> 42 ≠ 0 then none
    else some ((offset <<< 22) ||| (worker_id <<< 12) ||| seq)

/-- A Discord message as far as the pagination engine observes it: its
Snowflake identifier.  The `content` and `author` fields of the Rust struct
play no role in `get_messages_range` and are omitted. -/
structure Message where
  id : Nat
deriving DecidableEq

/-- `Message::timestamp`: derive the timestamp from the Snowflake id.  Total
here because ids are `Nat` (see `snowflake_to_utc_datetime`). -/
def Message.timestamp (m : Message) : Int :=
  snowflake_to_utc_datetime m.id

/-- Binary-search worker for `slice::partition_point` /
`slice::binary_search_by`.  `lo`/`hi` bracket the search; each step halves
the interval, so `hi - lo` units of fuel suffice, making the recursion
structural.  The Rust midpoint `left + (right - left) / 2` equals
`(lo + hi) / 2`. -/
def ppGo (p : α → Bool) (l : List α) : Nat → Nat → Nat → Nat
  | 0, lo, _ => lo
  | fuel + 1, lo, hi =>
    if lo < hi then
      let mid := (lo + hi) / 2
      match l.get? mid with
      | some a => if p a then ppGo p l fuel (mid + 1) hi else ppGo p l fuel lo mid
      | none => ppGo p l fuel lo mid
    else lo

/-- `slice::partition_point`: the index of the first element of the second
partition, computed by binary search over the whole slice. -/
def partitionPoint (p : α → Bool) (l : List α) : Nat :=
  ppGo p l l.length 0 l.length

/-- The `filter_msg` closure inside `get_messages_range`: compute the
partition point of the window-membership predicate over the (assumed
newest-first) batch, truncate to that prefix when it is below 100, and keep
the whole batch otherwise. -/
def filter_msg (range : DateRange) (msgs : List Message) : List Message :=
  let split_idx := partitionPoint (fun x => range.contains x.timestamp) msgs
  if split_idx < 100 then msgs.take split_idx else msgs

/-- `DiscordClient::get_messages`: the most recent `limit` messages of the
channel.  `stream` is the channel's full history, newest first; the remote
returns its first `limit` entries.  `none` models the `panic!` on a zero
limit. -/
def getMessages (stream : List Message) (limit : Nat) : Option (List Message) :=
  if limit = 0 then none else some (stream.take limit)

/-- `DiscordClient::get_messages_before`: up to `limit` messages whose
identifier is strictly below `before_id`, drawn in stream (newest-first)
order.  `none` models the `panic!` on a zero limit. -/
def getMessagesBefore (stream : List Message) (before_id : Nat) (limit : Nat) :
    Option (List Message) :=
  if limit = 0 then none
  else some ((stream.filter (fun m => m.id < before_id)).take limit)

/-- The first fetch issued by `get_messages_range` (its `match
date_range.end_bound()`): for a bounded end, a synthetic cursor built from
`d.unix_timestamp() * 1000` — the upper bound floored to whole seconds and
re-expressed in milliseconds — with worker id 0 and sequence 0; for an
unbounded end no cursor.  The page size is `limit.unwrap_or(100).min(100)`.
`Err` is the `?` on a failed snowflake conversion. -/
def firstRequest (range : DateRange) (limit : Option Nat) :
    Except Unit (Option Nat × Nat) :=
  let cap := min (limit.getD 100) 100
  match range.stop with
  | .included d | .excluded d =>
    match unix_ms_to_snowflake (d / 1000 * 1000) 0 0 with
    | none => .error ()
    | some before_id => .ok (some before_id, cap)
  | .unbounded => .ok (none, cap)

/-- What the claim under review says the first cursor is.  Modelled from the
spec: "converting that upper-bound instant (in milliseconds) into a
Snowflake-shaped identifier with partition id 0 and sequence 0" — i.e. the
instant's millisecond value itself, without flooring to whole seconds.  Kept
separate so it can be compared against `firstRequest`. -/
def claimedFirstCursor (d : Int) : Option Nat :=
  unix_ms_to_snowflake d 0 0

/-- Outcome of `get_messages_range`: a normal `Ok(messages)` return, a
`panic!` reached inside `get_messages_before`/`get_messages` (zero limit),
or an `Err` propagated by `?` (failed snowflake conversion of the upper
bound). -/
inductive RangeResult where
  | ok (messages : List Message)
  | panicked
  | errored
deriving DecidableEq

/-- The `while` drain loop of `get_messages_range`.  State: elapsed
wall-clock milliseconds since the loop began and the accumulated messages.
Each remote call takes `fetchMs` milliseconds; the safety cutoff is 5
minutes (300000 ms).  The loop continues while the accumulated count is
within the limit, a last message exists, its (always decodable) timestamp
lies inside the window, and the cutoff has not tripped.  `fuel` bounds the
number of iterations so the recursion is structural; `none` means the fuel
ran out, never that the code did something.  The body of one iteration: -/
def drainBody (stream : List Message) (range : DateRange) (limit : Option Nat)
    (fetchMs : Nat) (rec : Nat → List Message → Option RangeResult)
    (elapsed : Nat) (messages : List Message) : Option RangeResult :=
  match messages.getLast? with
  | none => some (.ok messages)
  | some lastmsg =>
    if ((match limit with | none => true | some l => decide (messages.length ≤ l))
        && range.contains lastmsg.timestamp
        && decide (elapsed < 300000)) then
      let cap := match limit with
        | some l => min (l - messages.length) 100
        | none => 100
      match getMessagesBefore stream lastmsg.id cap with
      | none => some .panicked
      | some batch =>
        let newmsg := filter_msg range batch
        if newmsg.isEmpty then some (.ok messages)
        else rec (elapsed + fetchMs) (messages ++ newmsg)
    else some (.ok messages)

/-- The recursion over the fuel: one `drainBody` evaluation per iteration. -/
def drainLoop (stream : List Message) (range : DateRange) (limit : Option Nat)
    (fetchMs : Nat) : Nat → Nat → List Message → Option RangeResult
  | 0, _, _ => none
  | fuel + 1, elapsed, messages =>
    drainBody stream range limit fetchMs
      (drainLoop stream range limit fetchMs fuel) elapsed messages

/-- `DiscordClient::get_messages_range`: fetch the first batch according to
the end bound, filter it to the window, return early on an empty or
undersized result, and otherwise drain older pages until a stop condition
fires. -/
def getMessagesRange (stream : List Message) (range : DateRange)
    (limit : Option Nat) (fetchMs : Nat) (fuel : Nat) : Option RangeResult :=
  match firstRequest range limit with
  | .error _ => some .errored
  | .ok (before?, cap) =>
    match (match before? with
           | some before_id => getMessagesBefore stream before_id cap
           | none => getMessages stream cap) with
    | none => some .panicked
    | some batch =>
      let messages := filter_msg range batch
      if messages.isEmpty then some (.ok [])
      else if messages.length < 100 then some (.ok messages)
      else drainLoop stream range limit fetchMs fuel 0 messages

/-- The per-channel `for` loop of `mainfn` in `src/discord.rs`.  Each list
element is the combined outcome of one channel's pipeline — `get_channel?`,
`get_guild?`, `get_messages_range?`, link extraction and exclusion
filtering — as the list of surviving link strings or the first error of the
chain.  The loop appends each channel's links to `urls` and propagates any
error with `?`, aborting `mainfn`. -/
def mainfnLoop (outcomes : List (Except Unit (List String))) :
    Except Unit (List String) :=
  match outcomes with
  | [] => .ok []
  | r :: rest => do
    let links ← r
    let urls ← mainfnLoop rest
    pure (links ++ urls)

/-! ### The generic fetch client, `src/fetcher.rs` -/

/-- A remote HTTP response as `Client::fetch` observes it: status code, the
`Retry-After` header (`none` absent, `some none` present but unparseable as
`u64` seconds, `some (some n)` parsed), and the body. -/
structure Resp where
  status : Nat
  retryAfter : Option (Option Nat)
  body : String
deriving DecidableEq

/-- The environment one execution of the `fetchcall` closure runs in: the
cache lookup outcome for the URL, the network response a cache miss would
receive, and whether the cache-population pipeline
(`res.cloned()? / headers_mut().set(..)? / cache.put(..).await?`) succeeds. -/
structure AttemptEnv where
  cache : Option Resp
  net : Resp
  cacheWriteOk : Bool

/-- Errors out of one `fetchcall` execution: the typed `HttpError { status,
headers, .. }` (headers reduced to the `Retry-After` entry, the only one the
retry layer reads), or a failure of the cache-population pipeline, which the
closure propagates with `?` before the status check. -/
inductive FetchErr where
  | http (status : Nat) (retryAfter : Option (Option Nat))
  | cacheFail
deriving DecidableEq

/-- One execution of the `fetchcall` closure in `Client::fetch`: serve from
cache on a hit; on a miss send the request and populate the cache —
propagating any cache-write failure — then fail with `HttpError` on any
status other than 200 OK, else return the body. -/
def fetchcall (env : AttemptEnv) : Except FetchErr String :=
  match env.cache with
  | some cached =>
    if cached.status ≠ 200 then .error (.http cached.status cached.retryAfter)
    else .ok cached.body
  | none =>
    if env.cacheWriteOk = false then .error .cacheFail
    else if env.net.status ≠ 200 then .error (.http env.net.status env.net.retryAfter)
    else .ok env.net.body

/-- The `Retry-After` seconds the `adjust` closure computes for a 429:
`headers.get` then `to_str().unwrap_or("30")` then
`parse::<u64>().unwrap_or(30)` — absent or unparseable defaults to 30. -/
def retryAfterOf (h : Option (Option Nat)) : Nat :=
  match h with
  | some (some n) => n
  | some none => 30
  | none => 30

/-- The `adjust` closure handed to `backon`: it receives the error and the
next backoff duration (`none` once the 5 `max_times` are exhausted) and
returns the duration actually slept (`none` aborts the retry loop).  For a
429 it substitutes the `Retry-After` duration, aborting when that exceeds 15
minutes (900 s); every other error keeps the backoff iterator's answer. -/
def adjust (e : FetchErr) (dur : Option Nat) : Option Nat :=
  match e with
  | .http status retryAfter =>
    if status = 429 then
      let ra := retryAfterOf retryAfter
      if 900 < ra then none else some ra
    else dur
  | .cacheFail => dur

/-- `backon`'s retry driver around `fetchcall`: run the attempt, and on an
error ask `adjust` (fed the next backoff duration) whether and how long to
sleep before retrying.  `envs i` is attempt `i`'s environment, `backoffs`
the jittered exponential durations still unconsumed (at most 5), `sleeps`
the sleeps performed so far.  `fuel` makes the recursion structural — the
`adjust` hook can keep a 429 retrying past the backoff budget — and `none`
means only that the fuel ran out.  The body of one attempt: -/
def fetchStep (envs : Nat → AttemptEnv)
    (rec : List Nat → Nat → List Nat → Option (Except FetchErr String × List Nat))
    (backoffs : List Nat) (i : Nat) (sleeps : List Nat) :
    Option (Except FetchErr String × List Nat) :=
  match fetchcall (envs i) with
  | .ok b => some (.ok b, sleeps)
  | .error e =>
    match adjust e backoffs.head? with
    | none => some (.error e, sleeps)
    | some d => rec backoffs.tail (i + 1) (sleeps ++ [d])

/-- The recursion over the fuel: one `fetchStep` per attempt. -/
def fetchLoop (envs : Nat → AttemptEnv) :
    Nat → List Nat → Nat → List Nat → Option (Except FetchErr String × List Nat)
  | 0, _, _, _ => none
  | fuel + 1, backoffs, i, sleeps =>
    fetchStep envs (fetchLoop envs fuel) backoffs i sleeps

/-- `Client::fetch`: the retry loop started with no sleeps performed. -/
def fetch (envs : Nat → AttemptEnv) (backoffs : List Nat) (fuel : Nat) :
    Option (Except FetchErr String × List Nat) :=
  fetchLoop envs fuel backoffs 0 []

/-! ### The Discord client's `get_json`, `src/discord.rs` -/

/-- A response as `DiscordClient::get_json` observes it: status, the
`Retry-After` header (`none` absent, `some none` unparseable as `f64`,
`some (some n)` parsed — integer seconds suffice for the claims), body. -/
structure DResp where
  status : Nat
  retryAfter : Option (Option Nat)
  body : String
deriving DecidableEq

/-- The wait `get_json` computes on a 429:
`headers().get("Retry-After").and_then(parse::<f64>().ok()).unwrap_or(1.0)`
— absent or unparseable defaults to 1 second. -/
def discordRetryAfterSecs (h : Option (Option Nat)) : Nat :=
  match h with
  | some (some n) => n
  | _ => 1

/-- Final errors of `DiscordClient::get_json`: a non-2xx status
(`anyhow!("Discord API error ..")`), or — a modelling artifact — the
scripted response list ran out while the unbounded 429 recursion was still
retrying. -/
inductive DErr where
  | api (status : Nat)
  | exhausted
deriving DecidableEq

/-- `DiscordClient::get_json` against a script of responses, one per
attempt: on a 429, record the `Retry-After` sleep (the cooldown cell is set
and immediately waited out, so the sleeps list is its observable effect) and
recurse on the remaining script; on a 2xx (`Response::ok()`), succeed with
the body; otherwise fail.  Returns the result and the sleeps performed.
JSON decoding is out of scope (the body stands for the decoded payload). -/
def discordGetJson : List DResp → Except DErr String × List Nat
  | [] => (.error .exhausted, [])
  | r :: rest =>
    if r.status = 429 then
      let ra := discordRetryAfterSecs r.retryAfter
      let (res, sleeps) := discordGetJson rest
      (res, ra :: sleeps)
    else if 200 ≤ r.status ∧ r.status ≤ 299 then (.ok r.body, [])
    else (.error (.api r.status), [])

/-! ### List and partition-point lemmas -/

theorem take_length_takeWhile (p : α → Bool) (l : List α) :
    l.take (l.takeWhile p).length = l.takeWhile p := by
  induction l with
  | nil => rfl
  | cons a t ih =>
    by_cases h : p a
    · simp [List.takeWhile_cons, h, ih]
    · simp [List.takeWhile_cons, h]

theorem pred_get_of_lt_length_takeWhile (p : α → Bool) (l : List α) (i : Nat)
    (h : i < (l.takeWhile p).length) (h' : i < l.length) :
    p (l.get ⟨i, h'⟩) = true := by
  induction l generalizing i with
  | nil => simp at h'
  | cons a t ih =>
    by_cases hpa : p a
    · cases i with
      | zero => exact hpa
      | succ j =>
        simp only [List.takeWhile_cons, hpa, if_true, List.length_cons] at h
        exact ih j (by omega) (by simpa using h')
    · simp [List.takeWhile_cons, hpa] at h

theorem pred_get?_length_takeWhile (p : α → Bool) (l : List α) {a : α}
    (h : l.get? (l.takeWhile p).length = some a) : p a = false := by
  induction l with
  | nil => simp at h
  | cons b t ih =>
    by_cases hpb : p b
    · have hrw : (b :: t).takeWhile p = b :: t.takeWhile p := by
        simp [List.takeWhile_cons, hpb]
      rw [hrw] at h
      exact ih h
    · have hrw : (b :: t).takeWhile p = [] := by simp [List.takeWhile_cons, hpb]
      rw [hrw] at h
      simp only [List.length_nil, List.get?] at h
      cases h
      simpa using hpb

theorem ppGo_eq (p : α → Bool) (l : List α) (k : Nat)
    (hk₁ : ∀ (i : Nat) (h : i < l.length), i < k → p (l.get ⟨i, h⟩) = true)
    (hk₂ : ∀ (i : Nat) (h : i < l.length), p (l.get ⟨i, h⟩) = true → i < k) :
    ∀ (fuel lo hi : Nat), hi - lo ≤ fuel → lo ≤ k → k ≤ hi → hi ≤ l.length →
      ppGo p l fuel lo hi = k := by
  intro fuel
  induction fuel with
  | zero =>
    intro lo hi h1 h2 h3 h4
    simp only [ppGo]
    omega
  | succ m ih =>
    intro lo hi h1 h2 h3 h4
    by_cases hlh : lo < hi
    · have hmid : (lo + hi) / 2 < l.length := by omega
      have hget : l.get? ((lo + hi) / 2) = some (l.get ⟨(lo + hi) / 2, hmid⟩) :=
        List.get?_eq_get hmid
      rw [ppGo, if_pos hlh]
      simp only [hget]
      by_cases hp : p (l.get ⟨(lo + hi) / 2, hmid⟩) = true
      · have hk : (lo + hi) / 2 < k := hk₂ _ _ hp
        rw [if_pos hp]
        exact ih _ _ (by omega) (by omega) (by omega) h4
      · have hk : k ≤ (lo + hi) / 2 := by
          by_contra hc
          exact hp (hk₁ _ _ (by omega))
        rw [if_neg hp]
        exact ih _ _ (by omega) (by omega) (by omega) (by omega)
    · simp only [ppGo, if_neg hlh]
      omega

theorem partitionPoint_eq_length_takeWhile (p : α → Bool) (l : List α)
    (hA : ∀ (i j : Nat) (hi : i < l.length) (hj : j < l.length), i ≤ j →
      p (l.get ⟨j, hj⟩) = true → p (l.get ⟨i, hi⟩) = true) :
    partitionPoint p l = (l.takeWhile p).length := by
  have hle : (l.takeWhile p).length ≤ l.length :=
    (l.takeWhile_sublist p).length_le
  refine ppGo_eq p l (l.takeWhile p).length ?_ ?_ l.length 0 l.length
    (by omega) (by omega) hle (le_refl _)
  · intro i h hik
    exact pred_get_of_lt_length_takeWhile p l i hik h
  · intro i h hp
    by_contra hc
    have htw : (l.takeWhile p).length < l.length := by omega
    have hfalse := pred_get?_length_takeWhile p l (List.get?_eq_get htw)
    have htrue := hA (l.takeWhile p).length i htw h (by omega) hp
    rw [htrue] at hfalse
    exact Bool.noConfusion hfalse

theorem filter_msg_eq_takeWhile (range : DateRange) (msgs : List Message)
    (hlen : msgs.length ≤ 100)
    (hA : ∀ (i j : Nat) (hi : i < msgs.length) (hj : j < msgs.length), i ≤ j →
      (fun x => range.contains x.timestamp) (msgs.get ⟨j, hj⟩) = true →
      (fun x => range.contains x.timestamp) (msgs.get ⟨i, hi⟩) = true) :
    filter_msg range msgs = msgs.takeWhile (fun x => range.contains x.timestamp) := by
  unfold filter_msg
  rw [partitionPoint_eq_length_takeWhile _ _ hA]
  by_cases h : (msgs.takeWhile (fun x => range.contains x.timestamp)).length < 100
  · rw [if_pos h]
    exact take_length_takeWhile _ _
  · rw [if_neg h]
    have hle : (msgs.takeWhile (fun x => range.contains x.timestamp)).length ≤
        msgs.length := (msgs.takeWhile_sublist _).length_le
    have heq : (msgs.takeWhile (fun x => range.contains x.timestamp)).length =
        msgs.length := by omega
    have := take_length_takeWhile (fun x => range.contains x.timestamp) msgs
    rw [heq, List.take_length] at this
    exact this

/-! ### Timestamp and window arithmetic -/

theorem snowflake_to_unix_ms_mono {a b : Nat} (h : a ≤ b) :
    snowflake_to_unix_ms a ≤ snowflake_to_unix_ms b := by
  have h1 : a >>> 22 ≤ b >>> 22 := by
    simp only [Nat.shiftRight_eq_div_pow]
    exact Nat.div_le_div_right h
  unfold snowflake_to_unix_ms
  have := Int.ofNat_le.mpr h1
  omega

theorem snowflake_to_utc_datetime_mono {a b : Nat} (h : a ≤ b) :
    snowflake_to_utc_datetime a ≤ snowflake_to_utc_datetime b := by
  have := snowflake_to_unix_ms_mono h
  unfold snowflake_to_utc_datetime
  omega

theorem boundLowerOk_mono {b : Bound} {t t' : Int} (h : t ≤ t')
    (hb : boundLowerOk b t = true) : boundLowerOk b t' = true := by
  cases b <;> simp_all [boundLowerOk] <;> omega

theorem boundUpperOk_anti {b : Bound} {t t' : Int} (h : t ≤ t')
    (hb : boundUpperOk b t' = true) : boundUpperOk b t = true := by
  cases b <;> simp_all [boundUpperOk] <;> omega

theorem contains_iff {r : DateRange} {t : Int} :
    r.contains t = true ↔ boundLowerOk r.start t = true ∧ boundUpperOk r.stop t = true := by
  simp [DateRange.contains]

/-- The window predicate is partitioned along any batch of messages sorted
newest first all of whose timestamps satisfy the end bound: once an entry is
out of the window (below the start bound), all older entries are too. -/
theorem contains_antitone_on (range : DateRange) (l : List Message)
    (hsorted : l.Pairwise (fun a b => b.id < a.id))
    (hupper : ∀ m ∈ l, boundUpperOk range.stop m.timestamp = true) :
    ∀ (i j : Nat) (hi : i < l.length) (hj : j < l.length), i ≤ j →
      (fun x => range.contains x.timestamp) (l.get ⟨j, hj⟩) = true →
      (fun x => range.contains x.timestamp) (l.get ⟨i, hi⟩) = true := by
  intro i j hi hj hij hpj
  rcases Nat.eq_or_lt_of_le hij with heq | hlt
  · subst heq; exact hpj
  · have hid : (l.get ⟨j, hj⟩).id < (l.get ⟨i, hi⟩).id :=
      List.pairwise_iff_get.mp hsorted ⟨i, hi⟩ ⟨j, hj⟩ hlt
    have hts : (l.get ⟨j, hj⟩).timestamp ≤ (l.get ⟨i, hi⟩).timestamp :=
      snowflake_to_utc_datetime_mono (Nat.le_of_lt hid)
    simp only at hpj ⊢
    rw [contains_iff] at hpj ⊢
    exact ⟨boundLowerOk_mono hts hpj.1, hupper _ (l.get_mem _ _)⟩

/-- In a newest-first list, the last element has the least identifier. -/
theorem getLast?_id_le (l : List Message)
    (hs : l.Pairwise (fun a b => b.id < a.id))
    {x : Message} (hx : l.getLast? = some x) : ∀ a ∈ l, x.id ≤ a.id := by
  induction l with
  | nil => simp at hx
  | cons b t ih =>
    rcases List.pairwise_cons.mp hs with ⟨hb, ht⟩
    intro a ha
    cases t with
    | nil =>
      simp only [List.getLast?_singleton] at hx
      cases hx
      simp only [List.mem_singleton] at ha
      subst ha; exact Nat.le_refl _
    | cons c u =>
      rw [List.getLast?_cons_cons] at hx
      have hxmem : x ∈ c :: u := List.mem_of_getLast?_eq_some hx
      rcases List.mem_cons.mp ha with rfl | hat
      · exact Nat.le_of_lt (hb x hxmem)
      · exact ih ht hx a hat

/-! ### Filter-length measure lemmas -/

theorem length_filter_le_of_imp (p q : α → Bool) (l : List α)
    (himp : ∀ a, q a = true → p a = true) :
    (l.filter q).length ≤ (l.filter p).length := by
  induction l with
  | nil => simp
  | cons a t ih =>
    cases hq : q a with
    | true =>
      simp [List.filter_cons, hq, himp a hq]
      omega
    | false =>
      cases hp : p a <;> simp [List.filter_cons, hq, hp] <;> omega

theorem length_filter_lt_of_witness (p q : α → Bool) (l : List α) (x : α)
    (hx : x ∈ l) (hpx : p x = true) (hqx : q x = false)
    (himp : ∀ a, q a = true → p a = true) :
    (l.filter q).length < (l.filter p).length := by
  induction l with
  | nil => simp at hx
  | cons a t ih =>
    rcases List.mem_cons.mp hx with rfl | hxt
    · have hlen := length_filter_le_of_imp p q t himp
      simp [List.filter_cons, hpx, hqx]
      omega
    · have hstrict := ih hxt
      cases hq : q a with
      | true =>
        simp [List.filter_cons, hq, himp a hq]
        omega
      | false =>
        cases hp : p a <;> simp [List.filter_cons, hq, hp] <;> omega

/-! ### Cursor arithmetic -/

/-- Every identifier strictly below the synthetic first-request cursor
decodes to a timestamp strictly below the upper-bound instant `d`. -/
theorem timestamp_lt_of_lt_cursor {d : Int} {c : Nat}
    (henc : unix_ms_to_snowflake (d / 1000 * 1000) 0 0 = some c)
    {i : Nat} (hi : i < c) : snowflake_to_utc_datetime i < d := by
  simp only [unix_ms_to_snowflake] at henc
  split at henc
  · exact Option.noConfusion henc
  · split at henc
    · omega
    · split at henc
      · omega
      · split at henc
        · exact Option.noConfusion henc
        · rename_i hge h2 h3 hoff
          have hc : (d / 1000 * 1000 - DISCORD_EPOCH).toNat <<< 22 = c := by
            have h' := Option.some.inj henc
            simpa [Nat.zero_shiftLeft, Nat.or_zero] using h'
          have hdiv : i >>> 22 < (d / 1000 * 1000 - DISCORD_EPOCH).toNat := by
            rw [Nat.shiftRight_eq_div_pow]
            rw [← hc, Nat.shiftLeft_eq] at hi
            exact (Nat.div_lt_iff_lt_mul (by norm_num : (0:Nat) < 2 ^ 22)).mpr hi
          have hOint : ((d / 1000 * 1000 - DISCORD_EPOCH).toNat : Int) =
              d / 1000 * 1000 - DISCORD_EPOCH := by
            rw [not_lt] at hge
            exact Int.toNat_of_nonneg (by omega)
          have hiint : ((i >>> 22 : Nat) : Int) <
              ((d / 1000 * 1000 - DISCORD_EPOCH).toNat : Int) :=
            Int.ofNat_lt.mpr hdiv
          unfold snowflake_to_utc_datetime snowflake_to_unix_ms
          omega

/-! ### Batch lemmas -/

/-- Messages sorted newest first: strictly descending identifiers. -/
def msgSorted (l : List Message) : Prop := l.Pairwise (fun a b => b.id < a.id)

/-- Every message's derived timestamp lies inside the window. -/
def inWindow (range : DateRange) (l : List Message) : Prop :=
  ∀ m ∈ l, range.contains m.timestamp = true

theorem getMessagesBefore_inv {stream : List Message} {before_id cap : Nat}
    {batch : List Message} (h : getMessagesBefore stream before_id cap = some batch) :
    cap ≠ 0 ∧ batch = (stream.filter (fun m => m.id < before_id)).take cap := by
  unfold getMessagesBefore at h
  split at h
  · exact Option.noConfusion h
  · exact ⟨by assumption, (Option.some.inj h).symm⟩

theorem batch_facts {stream : List Message} {before_id cap : Nat}
    {batch : List Message} (hs : msgSorted stream)
    (h : getMessagesBefore stream before_id cap = some batch) :
    msgSorted batch ∧ (∀ m ∈ batch, m.id < before_id ∧ m ∈ stream) ∧
    batch.length ≤ cap := by
  obtain ⟨hcap, rfl⟩ := getMessagesBefore_inv h
  refine ⟨?_, ?_, ?_⟩
  · exact List.Pairwise.sublist
      ((List.take_sublist _ _).trans (List.filter_sublist _)) hs
  · intro m hm
    have hm' := (List.take_sublist _ _).subset hm
    rcases List.mem_filter.mp hm' with ⟨hmem, hpred⟩
    exact ⟨by simpa using hpred, hmem⟩
  · exact List.length_take_le _ _

theorem mem_takeWhile_pred (p : α → Bool) (l : List α) {x : α}
    (hx : x ∈ l.takeWhile p) : p x = true := by
  induction l with
  | nil => simp at hx
  | cons a t ih =>
    by_cases hpa : p a
    · rw [List.takeWhile_cons] at hx
      simp only [hpa, if_true] at hx
      rcases List.mem_cons.mp hx with rfl | h
      · exact hpa
      · exact ih h
    · simp [List.takeWhile_cons, hpa] at hx

theorem filter_msg_facts (range : DateRange) {batch : List Message}
    (hsorted : msgSorted batch)
    (hupper : ∀ m ∈ batch, boundUpperOk range.stop m.timestamp = true)
    (hlen : batch.length ≤ 100) :
    msgSorted (filter_msg range batch) ∧ inWindow range (filter_msg range batch) ∧
    ∀ m ∈ filter_msg range batch, m ∈ batch := by
  have heq := filter_msg_eq_takeWhile range batch hlen
    (contains_antitone_on range batch hsorted hupper)
  rw [heq]
  refine ⟨List.Pairwise.sublist (List.takeWhile_sublist _) hsorted, ?_, ?_⟩
  · intro m hm
    exact mem_takeWhile_pred (fun x => range.contains x.timestamp) batch hm
  · intro m hm
    exact (List.takeWhile_sublist _).subset hm

/-! ### The drain loop preserves sortedness and window membership -/

theorem drainLoop_inv (stream : List Message) (range : DateRange)
    (limit : Option Nat) (fetchMs : Nat) (hs : msgSorted stream) :
    ∀ (fuel elapsed : Nat) (messages out : List Message),
      msgSorted messages → inWindow range messages →
      drainLoop stream range limit fetchMs fuel elapsed messages = some (.ok out) →
      msgSorted out ∧ inWindow range out := by
  intro fuel
  induction fuel with
  | zero =>
    intro elapsed messages out _ _ h
    simp [drainLoop] at h
  | succ n ih =>
    intro elapsed messages out hms hmw h
    rw [show drainLoop stream range limit fetchMs (n + 1) elapsed messages =
        drainBody stream range limit fetchMs
          (drainLoop stream range limit fetchMs n) elapsed messages from rfl,
      drainBody.eq_def] at h
    split at h
    · simp only [Option.some.injEq, RangeResult.ok.injEq] at h
      subst h
      exact ⟨hms, hmw⟩
    · rename_i lastmsg hlast
      split at h
      · rename_i hcond
        simp only [Bool.and_eq_true] at hcond
        have hcont : range.contains lastmsg.timestamp = true := hcond.1.2
        simp only [] at h
        generalize hcapdef : (match limit with
          | some l => min (l - messages.length) 100
          | none => 100) = cap at h
        have hcaple : cap ≤ 100 := by
          subst hcapdef
          cases limit with
          | none => simp
          | some l =>
            simp only []
            exact Nat.min_le_right _ _
        split at h
        · simp at h
        · rename_i batch hgb
          obtain ⟨hbsorted, hbmem, hblen⟩ := batch_facts hs hgb
          have hupper : ∀ m ∈ batch, boundUpperOk range.stop m.timestamp = true := by
            intro m hm
            have hts : m.timestamp ≤ lastmsg.timestamp :=
              snowflake_to_utc_datetime_mono (Nat.le_of_lt (hbmem m hm).1)
            exact boundUpperOk_anti hts (contains_iff.mp hcont).2
          obtain ⟨hnsorted, hnwin, hnmem⟩ :=
            filter_msg_facts range hbsorted hupper (by omega)
          split at h
          · simp only [Option.some.injEq, RangeResult.ok.injEq] at h
            subst h
            exact ⟨hms, hmw⟩
          · refine ih _ _ out ?_ ?_ h
            · rw [msgSorted, List.pairwise_append]
              refine ⟨hms, hnsorted, ?_⟩
              intro a ha b hb
              have hb' : b.id < lastmsg.id := (hbmem b (hnmem b hb)).1
              have hla : lastmsg.id ≤ a.id := getLast?_id_le messages hms hlast a ha
              omega
            · intro m hm
              rcases List.mem_append.mp hm with hm' | hm'
              · exact hmw m hm'
              · exact hnwin m hm'
      · simp only [Option.some.injEq, RangeResult.ok.injEq] at h
        subst h
        exact ⟨hms, hmw⟩
/-! ### Termination of the drain loop -/

theorem filter_msg_subset (range : DateRange) (batch : List Message) :
    ∀ m ∈ filter_msg range batch, m ∈ batch := by
  intro m hm
  unfold filter_msg at hm
  simp only [] at hm
  split at hm
  · exact (List.take_sublist _ _).subset hm
  · exact hm

/-- Number of stream entries strictly older than the accumulator's last
message — the quantity each successful drain iteration strictly decreases. -/
def lastMeasure (stream messages : List Message) : Nat :=
  match messages.getLast? with
  | none => 0
  | some l => (stream.filter (fun m => m.id < l.id)).length

theorem drainLoop_total (stream : List Message) (range : DateRange)
    (limit : Option Nat) (fetchMs : Nat) :
    ∀ (fuel elapsed : Nat) (messages : List Message),
      lastMeasure stream messages < fuel →
      drainLoop stream range limit fetchMs fuel elapsed messages ≠ none := by
  intro fuel
  induction fuel with
  | zero => intro elapsed messages hm; omega
  | succ n ih =>
    intro elapsed messages hm
    rw [show drainLoop stream range limit fetchMs (n + 1) elapsed messages =
        drainBody stream range limit fetchMs
          (drainLoop stream range limit fetchMs n) elapsed messages from rfl,
      drainBody.eq_def]
    split
    · simp
    · rename_i lastmsg hlast
      split
      · simp only []
        split
        · simp
        · rename_i batch hgb
          split
          · simp
          · rename_i hne
            apply ih
            obtain ⟨hcap, hbatcheq⟩ := getMessagesBefore_inv hgb
            have hnsub := filter_msg_subset range batch
            rw [Bool.not_eq_true, List.isEmpty_eq_false] at hne
            obtain ⟨l', hgl⟩ :=
              Option.ne_none_iff_exists'.mp
                (fun hc => hne (List.getLast?_eq_none_iff.mp hc))
            have hl'mem : l' ∈ filter_msg range batch :=
              List.mem_of_getLast?_eq_some hgl
            have hl'batch : l' ∈ batch := hnsub l' hl'mem
            have hl'stream : l' ∈ stream ∧ l'.id < lastmsg.id := by
              rw [hbatcheq] at hl'batch
              have := (List.take_sublist _ _).subset hl'batch
              rcases List.mem_filter.mp this with ⟨hmem, hpred⟩
              exact ⟨hmem, by simpa using hpred⟩
            have hmeasure : (stream.filter (fun m => m.id < l'.id)).length <
                (stream.filter (fun m => m.id < lastmsg.id)).length := by
              refine length_filter_lt_of_witness _ _ stream l' hl'stream.1
                (by simpa using hl'stream.2) (by simp) ?_
              intro a ha
              simp only [decide_eq_true_eq] at ha ⊢
              omega
            have hnewlast : (messages ++ filter_msg range batch).getLast? = some l' := by
              rw [List.getLast?_append, hgl]
              rfl
            have hm1 : lastMeasure stream messages =
                (stream.filter (fun m => m.id < lastmsg.id)).length := by
              unfold lastMeasure
              rw [hlast]
            have hm2 : lastMeasure stream (messages ++ filter_msg range batch) =
                (stream.filter (fun m => m.id < l'.id)).length := by
              unfold lastMeasure
              rw [hnewlast]
            omega
      · simp

/-! ### First-request inversion -/

theorem getMessages_inv {stream : List Message} {cap : Nat} {batch : List Message}
    (h : getMessages stream cap = some batch) :
    cap ≠ 0 ∧ batch = stream.take cap := by
  unfold getMessages at h
  split at h
  · exact Option.noConfusion h
  · exact ⟨by assumption, (Option.some.inj h).symm⟩

theorem firstRequest_inv {range : DateRange} {limit : Option Nat}
    {before? : Option Nat} {cap : Nat}
    (h : firstRequest range limit = .ok (before?, cap)) :
    cap = min (limit.getD 100) 100 ∧
    ((∃ d c, (range.stop = .included d ∨ range.stop = .excluded d) ∧
        unix_ms_to_snowflake (d / 1000 * 1000) 0 0 = some c ∧ before? = some c) ∨
      (range.stop = .unbounded ∧ before? = none)) := by
  unfold firstRequest at h
  simp only [] at h
  cases hstop : range.stop with
  | included d =>
    rw [hstop] at h
    simp only [] at h
    cases henc : unix_ms_to_snowflake (d / 1000 * 1000) 0 0 with
    | none => rw [henc] at h; simp at h
    | some c =>
      rw [henc] at h
      simp only [Except.ok.injEq, Prod.mk.injEq] at h
      exact ⟨h.2.symm, .inl ⟨d, c, .inl rfl, henc, h.1.symm⟩⟩
  | excluded d =>
    rw [hstop] at h
    simp only [] at h
    cases henc : unix_ms_to_snowflake (d / 1000 * 1000) 0 0 with
    | none => rw [henc] at h; simp at h
    | some c =>
      rw [henc] at h
      simp only [Except.ok.injEq, Prod.mk.injEq] at h
      exact ⟨h.2.symm, .inl ⟨d, c, .inr rfl, henc, h.1.symm⟩⟩
  | unbounded =>
    rw [hstop] at h
    simp only [Except.ok.injEq, Prod.mk.injEq] at h
    exact ⟨h.2.symm, .inr ⟨rfl, h.1.symm⟩⟩

/-! ### Top-level properties of `get_messages_range` -/

theorem getMessagesRange_total (stream : List Message) (range : DateRange)
    (limit : Option Nat) (fetchMs : Nat) :
    ∃ r, getMessagesRange stream range limit fetchMs (stream.length + 1) = some r := by
  unfold getMessagesRange
  split
  · exact ⟨.errored, rfl⟩
  · split
    · exact ⟨.panicked, rfl⟩
    · rename_i batch hbatch
      simp only []
      split
      · exact ⟨.ok [], rfl⟩
      · split
        · exact ⟨.ok (filter_msg range batch), rfl⟩
        · have key : lastMeasure stream (filter_msg range batch) ≤ stream.length := by
            unfold lastMeasure
            split
            · exact Nat.zero_le _
            · exact List.length_filter_le _ _
          exact Option.ne_none_iff_exists'.mp
            (drainLoop_total stream range limit fetchMs (stream.length + 1) 0
              (filter_msg range batch) (by omega))

theorem getMessagesRange_sound (stream : List Message) (range : DateRange)
    (limit : Option Nat) (fetchMs fuel : Nat) (out : List Message)
    (hs : msgSorted stream)
    (h : getMessagesRange stream range limit fetchMs fuel = some (.ok out)) :
    msgSorted out ∧ inWindow range out := by
  unfold getMessagesRange at h
  split at h
  · simp at h
  · rename_i pair before? cap hfr
    obtain ⟨hcapeq, hshape⟩ := firstRequest_inv hfr
    have hcaple : cap ≤ 100 := by rw [hcapeq]; exact Nat.min_le_right _ _
    split at h
    · simp at h
    · rename_i batch hbatch
      simp only [] at h
      have hbfacts : msgSorted batch ∧
          (∀ m ∈ batch, boundUpperOk range.stop m.timestamp = true) ∧
          batch.length ≤ 100 := by
        rcases hshape with ⟨d, c, hstop, henc, rfl⟩ | ⟨hstop, rfl⟩
        · obtain ⟨hbs, hbmem, hblen⟩ := batch_facts hs hbatch
          refine ⟨hbs, ?_, by omega⟩
          intro m hm
          have hlt : m.timestamp < d := timestamp_lt_of_lt_cursor henc (hbmem m hm).1
          rcases hstop with hstop | hstop
          · rw [hstop]
            simp only [boundUpperOk, decide_eq_true_eq]
            omega
          · rw [hstop]
            simp only [boundUpperOk, decide_eq_true_eq]
            omega
        · obtain ⟨hcap, rfl⟩ := getMessages_inv hbatch
          refine ⟨List.Pairwise.sublist (List.take_sublist _ _) hs, ?_, ?_⟩
          · intro m hm
            rw [hstop]
            rfl
          · have := List.length_take_le cap stream
            omega
      obtain ⟨hbsorted, hbupper, hblen⟩ := hbfacts
      obtain ⟨hnsorted, hnwin, hnmem⟩ := filter_msg_facts range hbsorted hbupper hblen
      split at h
      · simp only [Option.some.injEq, RangeResult.ok.injEq] at h
        subst h
        exact ⟨List.Pairwise.nil, by intro m hm; simp at hm⟩
      · split at h
        · simp only [Option.some.injEq, RangeResult.ok.injEq] at h
          subst h
          exact ⟨hnsorted, hnwin⟩
        · exact drainLoop_inv stream range limit fetchMs hs fuel 0
            (filter_msg range batch) out hnsorted hnwin h

/-! ### Fetch-client lemmas -/

theorem fetchcall_cacheFail (env : AttemptEnv) (h1 : env.cache = none)
    (h2 : env.cacheWriteOk = false) : fetchcall env = .error .cacheFail := by
  unfold fetchcall
  rw [h1, h2]
  rfl

theorem fetchLoop_cacheFail (envs : Nat → AttemptEnv)
    (henv : ∀ i, (envs i).cache = none ∧ (envs i).cacheWriteOk = false) :
    ∀ (backoffs : List Nat) (i : Nat) (sleeps : List Nat),
      fetchLoop envs (backoffs.length + 1) backoffs i sleeps =
        some (.error .cacheFail, sleeps ++ backoffs) := by
  intro backoffs
  induction backoffs with
  | nil =>
    intro i sleeps
    rw [show fetchLoop envs (([] : List Nat).length + 1) [] i sleeps =
        fetchStep envs (fetchLoop envs 0) [] i sleeps from rfl, fetchStep.eq_def]
    rw [fetchcall_cacheFail (envs i) (henv i).1 (henv i).2]
    simp [adjust]
  | cons d rest ih =>
    intro i sleeps
    rw [show fetchLoop envs ((d :: rest).length + 1) (d :: rest) i sleeps =
        fetchStep envs (fetchLoop envs (rest.length + 1)) (d :: rest) i sleeps from rfl,
      fetchStep.eq_def]
    rw [fetchcall_cacheFail (envs i) (henv i).1 (henv i).2]
    simp only [adjust, List.head?_cons, List.tail_cons]
    rw [ih (i + 1) (sleeps ++ [d])]
    simp

theorem fetch_cacheFail (envs : Nat → AttemptEnv) (backoffs : List Nat)
    (henv : ∀ i, (envs i).cache = none ∧ (envs i).cacheWriteOk = false) :
    fetch envs backoffs (backoffs.length + 1) =
      some (.error .cacheFail, backoffs) := by
  unfold fetch
  rw [fetchLoop_cacheFail envs henv backoffs 0 []]
  simp

theorem fetchLoop_429_abort (envs : Nat → AttemptEnv) (fuel : Nat)
    (backoffs : List Nat) (i : Nat) (sleeps : List Nat)
    (h : Option (Option Nat))
    (hcall : fetchcall (envs i) = .error (.http 429 h))
    (hra : 900 < retryAfterOf h) (hfuel : 0 < fuel) :
    fetchLoop envs fuel backoffs i sleeps = some (.error (.http 429 h), sleeps) := by
  cases fuel with
  | zero => omega
  | succ n =>
    rw [show fetchLoop envs (n + 1) backoffs i sleeps =
        fetchStep envs (fetchLoop envs n) backoffs i sleeps from rfl,
      fetchStep.eq_def, hcall]
    simp [adjust, hra]

theorem fetchLoop_sleeps_extend (envs : Nat → AttemptEnv) :
    ∀ (fuel : Nat) (backoffs : List Nat) (i : Nat) (sleeps : List Nat)
      (r : Except FetchErr String) (s : List Nat),
      fetchLoop envs fuel backoffs i sleeps = some (r, s) →
      ∃ t, s = sleeps ++ t := by
  intro fuel
  induction fuel with
  | zero =>
    intro backoffs i sleeps r s h
    simp [fetchLoop] at h
  | succ n ih =>
    intro backoffs i sleeps r s h
    rw [show fetchLoop envs (n + 1) backoffs i sleeps =
        fetchStep envs (fetchLoop envs n) backoffs i sleeps from rfl,
      fetchStep.eq_def] at h
    split at h
    · simp only [Option.some.injEq, Prod.mk.injEq] at h
      exact ⟨[], by simp [h.2.symm]⟩
    · split at h
      · simp only [Option.some.injEq, Prod.mk.injEq] at h
        exact ⟨[], by simp [h.2.symm]⟩
      · rename_i e he d hd
        obtain ⟨t, ht⟩ := ih _ _ _ _ _ h
        exact ⟨d :: t, by simp [ht]⟩

/-- On a first-attempt 429 whose `Retry-After` resolves to 30 (absent or
unparseable header), the first sleep the generic client performs is 30
seconds. -/
theorem fetch_429_first_sleep (envs : Nat → AttemptEnv) (backoffs : List Nat)
    (fuel : Nat) (h : Option (Option Nat)) (r : Except FetchErr String)
    (s : List Nat)
    (hcall : fetchcall (envs 0) = .error (.http 429 h))
    (hdef : retryAfterOf h = 30)
    (hres : fetch envs backoffs fuel = some (r, s)) :
    s.head? = some 30 := by
  cases fuel with
  | zero => simp [fetch, fetchLoop] at hres
  | succ n =>
    unfold fetch at hres
    rw [show fetchLoop envs (n + 1) backoffs 0 [] =
        fetchStep envs (fetchLoop envs n) backoffs 0 [] from rfl,
      fetchStep.eq_def, hcall] at hres
    simp [adjust, hdef] at hres
    obtain ⟨t, ht⟩ := fetchLoop_sleeps_extend envs n _ _ _ _ _ hres
    rw [ht]
    rfl

/-! ### Discord `get_json` lemmas -/

theorem discordGetJson_429 (r : DResp) (rest : List DResp)
    (h429 : r.status = 429) :
    discordGetJson (r :: rest) =
      ((discordGetJson rest).1,
        discordRetryAfterSecs r.retryAfter :: (discordGetJson rest).2) := by
  rcases hdj : discordGetJson rest with ⟨a, b⟩
  simp [discordGetJson, h429, hdj]

/-! ### `mainfn` loop lemmas -/

theorem mainfnLoop_all_ok (lss : List (List String)) :
    mainfnLoop (lss.map .ok) = .ok lss.flatten := by
  induction lss with
  | nil => rfl
  | cons a t ih =>
    simp only [List.map_cons, mainfnLoop, ih, List.flatten_cons]
    rfl

theorem mainfnLoop_first_error (pre rest : List (Except Unit (List String)))
    (e : Unit) (hpre : ∀ r ∈ pre, ∃ ls, r = .ok ls) :
    mainfnLoop (pre ++ .error e :: rest) = .error e := by
  induction pre with
  | nil => rfl
  | cons a t ih =>
    obtain ⟨ls, rfl⟩ := hpre a (List.mem_cons_self _ _)
    have ht : ∀ r ∈ t, ∃ ls, r = .ok ls := fun r hr => hpre r (List.mem_cons_of_mem _ hr)
    rw [List.cons_append]
    show (mainfnLoop (t ++ Except.error e :: rest) >>=
      fun urls => pure (ls ++ urls)) = Except.error e
    rw [ih ht]
    rfl

/-! ### Snowflake field extraction -/

theorem testBit_triple (O w s : Nat) (hw : w < 2 ^ 10) (hs : s < 2 ^ 12) (j : Nat) :
    ((O <<< 22) ||| (w <<< 12) ||| s).testBit j =
      if j < 12 then s.testBit j
      else if j < 22 then w.testBit (j - 12)
      else O.testBit (j - 22) := by
  have hwb : ∀ j', 10 ≤ j' → w.testBit j' = false := fun j' hj' =>
    Nat.testBit_eq_false_of_lt
      (lt_of_lt_of_le hw (Nat.pow_le_pow_right (by norm_num) hj'))
  have hsb : ∀ j', 12 ≤ j' → s.testBit j' = false := fun j' hj' =>
    Nat.testBit_eq_false_of_lt
      (lt_of_lt_of_le hs (Nat.pow_le_pow_right (by norm_num) hj'))
  simp only [Nat.testBit_lor, Nat.testBit_shiftLeft]
  by_cases h12 : j < 12
  · rw [if_pos h12]
    simp [show ¬(22 ≤ j) from by omega, show ¬(12 ≤ j) from by omega]
  · rw [if_neg h12]
    by_cases h22 : j < 22
    · rw [if_pos h22]
      simp [show ¬(22 ≤ j) from by omega, show 12 ≤ j from by omega,
        hsb j (by omega)]
    · rw [if_neg h22]
      simp [show 22 ≤ j from by omega, show 12 ≤ j from by omega,
        hsb j (by omega), hwb (j - 12) (by omega)]

theorem snowflake_decode_of_encode (timestamp_ms : Int) (worker_id seq n : Nat)
    (h : unix_ms_to_snowflake timestamp_ms worker_id seq = some n) :
    snowflake_to_unix_ms n = timestamp_ms ∧
    (n >>> 12) % 1024 = worker_id ∧ n % 4096 = seq := by
  simp only [unix_ms_to_snowflake] at h
  split at h
  · exact Option.noConfusion h
  · split at h
    · exact Option.noConfusion h
    · split at h
      · exact Option.noConfusion h
      · split at h
        · exact Option.noConfusion h
        · rename_i hts hw hseq hoff
          have hn := Option.some.inj h
          subst hn
          have hw1024 : worker_id < 2 ^ 10 := by
            have h2 : (2:Nat) ^ 10 = 1024 := by norm_num
            omega
          have hseq4096 : seq < 2 ^ 12 := by
            have h2 : (2:Nat) ^ 12 = 4096 := by norm_num
            omega
          refine ⟨?_, ?_, ?_⟩
          · have hsh : ((timestamp_ms - DISCORD_EPOCH).toNat <<< 22 |||
                worker_id <<< 12 ||| seq) >>> 22 =
                (timestamp_ms - DISCORD_EPOCH).toNat := by
              apply Nat.eq_of_testBit_eq
              intro j
              rw [Nat.testBit_shiftRight,
                testBit_triple _ worker_id seq hw1024 hseq4096,
                if_neg (by omega), if_neg (by omega)]
              congr 1
              omega
            unfold snowflake_to_unix_ms
            rw [hsh]
            have hcast : ((timestamp_ms - DISCORD_EPOCH).toNat : Int) =
                timestamp_ms - DISCORD_EPOCH := Int.toNat_of_nonneg (by omega)
            omega
          · apply Nat.eq_of_testBit_eq
            intro j
            rw [show (1024:Nat) = 2 ^ 10 from by norm_num, Nat.testBit_mod_two_pow,
              Nat.testBit_shiftRight,
              testBit_triple _ worker_id seq hw1024 hseq4096]
            by_cases hj : j < 10
            · rw [if_neg (by omega), if_pos (by omega)]
              simp [hj, show 12 + j - 12 = j from by omega]
            · have hwz : worker_id.testBit j = false :=
                Nat.testBit_eq_false_of_lt
                  (lt_of_lt_of_le hw1024 (Nat.pow_le_pow_right (by norm_num) (by omega)))
              simp [hj, hwz]
          · apply Nat.eq_of_testBit_eq
            intro j
            rw [show (4096:Nat) = 2 ^ 12 from by norm_num, Nat.testBit_mod_two_pow,
              testBit_triple _ worker_id seq hw1024 hseq4096]
            by_cases hj : j < 12
            · rw [if_pos hj]
              simp [hj]
            · have hsz : seq.testBit j = false :=
                Nat.testBit_eq_false_of_lt
                  (lt_of_lt_of_le hseq4096 (Nat.pow_le_pow_right (by norm_num) (by omega)))
              simp [hj, hsz]

/-! ## Claim theorems -/

/-- C1 (counterexample): the claim says a failure in one source never cancels
the others and every succeeded source's results reach the aggregate.  On the
concrete run where the first channel fails and the second succeeds with link
"a", `mainfn`'s loop returns the error: the run does not complete and "a" is
not in any aggregate. -/
theorem claim1_cx :
    mainfnLoop [Except.error (), Except.ok ["a"]] = Except.error () := rfl

/-- C1 (amended): `mainfn` processes channels sequentially and propagates the
first failure with `?`: the run aborts at the first failing source and later
sources are not reached; only when every source succeeds does the run
complete, with the aggregate concatenating all sources' links in order. -/
theorem claim1_thm :
    (∀ (pre rest : List (Except Unit (List String))) (e : Unit),
      (∀ r ∈ pre, ∃ ls, r = Except.ok ls) →
      mainfnLoop (pre ++ Except.error e :: rest) = Except.error e) ∧
    (∀ lss : List (List String), mainfnLoop (lss.map Except.ok) = Except.ok lss.flatten) :=
  ⟨mainfnLoop_first_error, mainfnLoop_all_ok⟩

/-- C1 (witness): a concrete aborted run and a concrete all-success run. -/
theorem claim1_wit :
    mainfnLoop ([Except.ok ["a"]] ++ Except.error () :: [Except.ok ["b"]]) =
      Except.error () ∧
    mainfnLoop ([["a"], ["b"]].map Except.ok) = Except.ok ([["a"], ["b"]].flatten) :=
  ⟨claim1_thm.1 [Except.ok ["a"]] [Except.ok ["b"]] ()
      (by intro r hr; simp at hr; exact ⟨["a"], hr⟩),
    claim1_thm.2 [["a"], ["b"]]⟩

/-- C2: for every window and every source stream sorted newest-first, any
normal return of `get_messages_range` is newest-first (strictly descending
identifiers) and every returned message's derived timestamp lies inside the
requested window. -/
theorem claim2_thm (stream : List Message) (range : DateRange)
    (limit : Option Nat) (fetchMs fuel : Nat) (out : List Message)
    (hs : stream.Pairwise (fun a b => b.id < a.id))
    (h : getMessagesRange stream range limit fetchMs fuel = some (.ok out)) :
    out.Pairwise (fun a b => b.id < a.id) ∧
    ∀ m ∈ out, range.contains m.timestamp = true :=
  getMessagesRange_sound stream range limit fetchMs fuel out hs h

/-- C2 (witness): a one-message sorted stream over the unbounded window. -/
theorem claim2_wit :
    ([⟨999 <<< 22⟩] : List Message).Pairwise (fun a b => b.id < a.id) ∧
    ∀ m ∈ ([⟨999 <<< 22⟩] : List Message),
      (⟨Bound.unbounded, Bound.unbounded⟩ : DateRange).contains m.timestamp = true :=
  claim2_thm [⟨999 <<< 22⟩] ⟨Bound.unbounded, Bound.unbounded⟩ none 0 2
    [⟨999 <<< 22⟩] (by simp) rfl

/-- C3 (counterexample): the claim says every fetch receiving a 429 with
`Retry-After` over 15 minutes aborts with no further sleep and no retry.
`DiscordClient::get_json` given `Retry-After: 1000` sleeps 1000 seconds and
retries, succeeding on the next response. -/
theorem claim3_cx :
    discordGetJson [⟨429, some (some 1000), ""⟩, ⟨200, none, "ok"⟩] =
      (Except.ok "ok", [1000]) := rfl

/-- C3 (amended): the generic fetch client (`fetcher.rs`) aborts immediately
— no sleep, no further attempt — on a 429 whose `Retry-After` exceeds 900
seconds; the Discord client's `get_json` has no such ceiling and instead
sleeps the full duration and retries. -/
theorem claim3_thm :
    (∀ (envs : Nat → AttemptEnv) (backoffs : List Nat) (fuel : Nat)
      (h : Option (Option Nat)), 0 < fuel →
      fetchcall (envs 0) = Except.error (.http 429 h) → 900 < retryAfterOf h →
      fetch envs backoffs fuel = some (Except.error (.http 429 h), [])) ∧
    (∀ (r : DResp) (rest : List DResp), r.status = 429 →
      discordGetJson (r :: rest) =
        ((discordGetJson rest).1,
          discordRetryAfterSecs r.retryAfter :: (discordGetJson rest).2)) :=
  ⟨fun envs backoffs fuel h hfuel hcall hra =>
      fetchLoop_429_abort envs fuel backoffs 0 [] h hcall hra hfuel,
    discordGetJson_429⟩

/-- C3 (witness): a fetch whose first attempt hits a cached 429 with
`Retry-After: 1000` aborts with no sleeps; a 429 response makes the Discord
client sleep and recurse. -/
theorem claim3_wit :
    fetch (fun _ => ⟨some ⟨429, some (some 1000), ""⟩, ⟨200, none, ""⟩, true⟩)
        [7] 3 =
      some (Except.error (.http 429 (some (some 1000))), []) ∧
    discordGetJson [⟨429, some (some 5), "x"⟩] =
      ((discordGetJson ([] : List DResp)).1,
        discordRetryAfterSecs (some (some 5)) ::
          (discordGetJson ([] : List DResp)).2) :=
  ⟨claim3_thm.1 _ [7] 3 (some (some 1000)) (by omega) rfl (by decide),
    claim3_thm.2 ⟨429, some (some 5), "x"⟩ [] rfl⟩

/-- C4 (counterexample): the claim says a cache-write failure after a
successfully received response never fails the fetch and is never retried.
With every attempt receiving a 200 response but failing the cache write, the
whole fetch fails with the cache error after sleeping through all five
backoff slots — the write was retried each time. -/
theorem claim4_cx :
    fetch (fun _ => ⟨none, ⟨200, none, "b"⟩, false⟩) [1, 1, 1, 1, 1] 6 =
      some (Except.error .cacheFail, [1, 1, 1, 1, 1]) := rfl

/-- C4 (amended): inside `fetchcall` the cache write happens before the
status check and its failure is propagated with `?`, failing that attempt;
the retry layer then re-runs the whole attempt (request and cache write) for
every backoff slot, and when the cache write keeps failing the fetch call
fails despite the successfully received responses. -/
theorem claim4_thm :
    (∀ env : AttemptEnv, env.cache = none → env.cacheWriteOk = false →
      fetchcall env = Except.error .cacheFail) ∧
    (∀ (envs : Nat → AttemptEnv) (backoffs : List Nat),
      (∀ i, (envs i).cache = none ∧ (envs i).cacheWriteOk = false) →
      fetch envs backoffs (backoffs.length + 1) =
        some (Except.error .cacheFail, backoffs)) :=
  ⟨fetchcall_cacheFail, fun envs backoffs henv => fetch_cacheFail envs backoffs henv⟩

/-- C4 (witness): one failing attempt, and a two-backoff run retried twice. -/
theorem claim4_wit :
    fetchcall ⟨none, ⟨200, none, "b"⟩, false⟩ = Except.error .cacheFail ∧
    fetch (fun _ => ⟨none, ⟨200, none, "b"⟩, false⟩) [2, 3] 3 =
      some (Except.error .cacheFail, [2, 3]) :=
  ⟨claim4_thm.1 _ rfl rfl, claim4_thm.2 _ [2, 3] (fun _ => ⟨rfl, rfl⟩)⟩

/-- C5 (counterexample): the claim says every HTTP 429 handler defaults the
missing `Retry-After` to 30 seconds.  The Discord client's `get_json` with
an absent header sleeps 1 second, not 30. -/
theorem claim5_cx :
    discordGetJson [⟨429, none, ""⟩, ⟨200, none, "ok"⟩] =
      (Except.ok "ok", [1]) := rfl

/-- C5 (amended): the generic fetch client reads `Retry-After` as integer
seconds and defaults to 30 when the header is absent or unparseable — its
first sleep after such a 429 is 30 seconds; the Discord client parses the
header as a float and defaults to 1 second when it is absent or
unparseable. -/
theorem claim5_thm :
    (retryAfterOf none = 30 ∧ retryAfterOf (some none) = 30) ∧
    (∀ (envs : Nat → AttemptEnv) (backoffs : List Nat) (fuel : Nat)
      (h : Option (Option Nat)) (r : Except FetchErr String) (s : List Nat),
      (h = none ∨ h = some none) →
      fetchcall (envs 0) = Except.error (.http 429 h) →
      fetch envs backoffs fuel = some (r, s) → s.head? = some 30) ∧
    (∀ (r : DResp) (rest : List DResp), r.status = 429 → r.retryAfter = none →
      discordGetJson (r :: rest) =
        ((discordGetJson rest).1, 1 :: (discordGetJson rest).2)) := by
  refine ⟨⟨rfl, rfl⟩, ?_, ?_⟩
  · intro envs backoffs fuel h r s hdef hcall hres
    rcases hdef with rfl | rfl
    · exact fetch_429_first_sleep envs backoffs fuel none r s hcall rfl hres
    · exact fetch_429_first_sleep envs backoffs fuel (some none) r s hcall rfl hres
  · intro r rest h429 habsent
    have := discordGetJson_429 r rest h429
    rw [habsent] at this
    exact this

/-- C5 (witness): a 429 with an absent header makes the generic client's
first sleep 30 seconds, and the Discord client sleep 1 second. -/
theorem claim5_wit :
    ([30] : List Nat).head? = some 30 ∧
    discordGetJson [⟨429, none, "z"⟩] =
      ((discordGetJson ([] : List DResp)).1, 1 :: (discordGetJson ([] : List DResp)).2) :=
  ⟨claim5_thm.2.1
      (fun i => if i = 0 then ⟨some ⟨429, none, ""⟩, ⟨200, none, ""⟩, true⟩
        else ⟨some ⟨200, none, "ok"⟩, ⟨200, none, ""⟩, true⟩)
      [9] 3 none (Except.ok "ok") [30] (Or.inl rfl) rfl rfl,
    claim5_thm.2.2 ⟨429, none, "z"⟩ [] rfl rfl⟩

/-- C6: for every triple the encoder accepts, decoding the produced
Snowflake recovers it exactly: `snowflake_to_unix_ms` returns the original
millisecond timestamp, bits 12..21 the partition id, bits 0..11 the
sequence. -/
theorem claim6_thm (timestamp_ms : Int) (worker_id seq n : Nat)
    (h : unix_ms_to_snowflake timestamp_ms worker_id seq = some n) :
    snowflake_to_unix_ms n = timestamp_ms ∧
    (n >>> 12) % 1024 = worker_id ∧ n % 4096 = seq :=
  snowflake_decode_of_encode timestamp_ms worker_id seq n h

/-- C6 (witness): the concrete triple (epoch+123 ms, 5, 7). -/
theorem claim6_wit :
    snowflake_to_unix_ms 515919879 = 1420070400123 ∧
    ((515919879 : Nat) >>> 12) % 1024 = 5 ∧ (515919879 : Nat) % 4096 = 7 :=
  claim6_thm 1420070400123 5 7 515919879 rfl

/-- C7 (counterexample): the claim says the first cursor converts the
upper-bound instant expressed in milliseconds.  For the bound at epoch+500ms
the code's first request carries cursor 0 (the bound floored to whole
seconds), while the instant's own millisecond value encodes to snowflake
2097152000 — a different cursor. -/
theorem claim7_cx :
    firstRequest ⟨Bound.unbounded, Bound.excluded 1420070400500⟩ none =
      Except.ok (some 0, 100) ∧
    claimedFirstCursor 1420070400500 = some 2097152000 ∧
    (0 : Nat) ≠ 2097152000 := ⟨rfl, rfl, by decide⟩

/-- C7 (amended): for a bounded upper end, the first request's cursor is the
Snowflake (partition id 0, sequence 0) of the upper-bound instant truncated
to whole seconds and re-expressed in milliseconds (`unix_timestamp() *
1000`), and its page size is `min(limit or 100, 100)`. -/
theorem claim7_thm (range : DateRange) (limit : Option Nat) (d : Int) (c : Nat)
    (hstop : range.stop = .included d ∨ range.stop = .excluded d)
    (henc : unix_ms_to_snowflake (d / 1000 * 1000) 0 0 = some c) :
    firstRequest range limit = Except.ok (some c, min (limit.getD 100) 100) := by
  rcases hstop with hstop | hstop <;>
    (unfold firstRequest; rw [hstop]; simp only []; rw [henc])

/-- C7 (witness): upper bound epoch+1000 ms, limit 42. -/
theorem claim7_wit :
    firstRequest ⟨Bound.unbounded, Bound.included 1420070401000⟩ (some 42) =
      Except.ok (some 4194304000, min ((some 42).getD 100) 100) :=
  claim7_thm ⟨Bound.unbounded, Bound.included 1420070401000⟩ (some 42)
    1420070401000 4194304000 (Or.inl rfl) rfl

/-- C8 (counterexample): the claim lists window exhaustion, budget excess and
the 5-minute cutoff as the only ways the drain loop ends.  With limit 150
over a 150-message in-window stream the run instead ends in the zero-page-
size panic — none of the three listed causes. -/
theorem claim8_cx :
    getMessagesRange ((List.range 150).map fun i => ⟨(999 - i) <<< 22⟩)
      ⟨Bound.included 1420070400000, Bound.excluded 1420070401000⟩
      (some 150) 0 151 = some .panicked := by decide

/-- C8 (amended): the loop always terminates — fuel `stream.length + 1`
iterations always suffice to produce a result — but the result may also be
the zero-page-size panic (or the propagated cursor-conversion error), not
only the three normal exits the claim lists. -/
theorem claim8_thm (stream : List Message) (range : DateRange)
    (limit : Option Nat) (fetchMs : Nat) :
    ∃ r, getMessagesRange stream range limit fetchMs (stream.length + 1) = some r :=
  getMessagesRange_total stream range limit fetchMs

/-- C9: with limit `Some(100)` over a stream of 100 in-window messages the
first batch reaches exactly the limit while its last message is still inside
the window; the drain loop then computes page size `(100 - 100).min(100) =
0` and `get_messages_before` panics instead of returning the 100 accumulated
messages. -/
theorem claim9_thm :
    getMessagesRange ((List.range 100).map fun i => ⟨(999 - i) <<< 22⟩)
      ⟨Bound.included 1420070400000, Bound.excluded 1420070401000⟩
      (some 100) 0 101 = some .panicked := by decide

/-- C10: `Message::timestamp` floors the Snowflake's millisecond timestamp to
whole seconds — the derived instant is `(unix_ms / 1000) * 1000`, discarding
up to 999 ms — so any two messages whose millisecond timestamps share a
second are indistinguishable to the window filter. -/
theorem claim10_thm :
    (∀ m : Message,
      m.timestamp = (snowflake_to_unix_ms m.id / 1000) * 1000 ∧
      0 ≤ snowflake_to_unix_ms m.id - m.timestamp ∧
      snowflake_to_unix_ms m.id - m.timestamp < 1000) ∧
    (∀ m₁ m₂ : Message,
      snowflake_to_unix_ms m₁.id / 1000 = snowflake_to_unix_ms m₂.id / 1000 →
      m₁.timestamp = m₂.timestamp) := by
  constructor
  · intro m
    refine ⟨rfl, ?_, ?_⟩
    · have h0 : (0 : Int) ≤ ((m.id >>> 22 : Nat) : Int) := Int.natCast_nonneg _
      unfold Message.timestamp snowflake_to_utc_datetime snowflake_to_unix_ms
        DISCORD_EPOCH at *
      omega
    · have h0 : (0 : Int) ≤ ((m.id >>> 22 : Nat) : Int) := Int.natCast_nonneg _
      unfold Message.timestamp snowflake_to_utc_datetime snowflake_to_unix_ms
        DISCORD_EPOCH at *
      omega
  · intro m₁ m₂ h
    unfold Message.timestamp snowflake_to_utc_datetime
    rw [h]

/-- C10 (witness): ids 0 and `500 <<< 22` are 500 ms apart inside the same
second and decode to the same timestamp. -/
theorem claim10_wit :
    Message.timestamp ⟨0⟩ = Message.timestamp ⟨500 <<< 22⟩ :=
  claim10_thm.2 ⟨0⟩ ⟨500 <<< 22⟩ (by decide)

end VidPlaylistMan
